import Mathlib

/-!
Shallow embedding of the Solana auction program
(`src/contracts/solana/programs/auction/src`), covering the auction state,
bid records, the escrow/bidder/treasury token balances, and the eight
instruction handlers.  Machine integers (`u64`, `i64`) are modelled as
`Nat`/`Int` with explicit checked arithmetic mirroring Rust's
`checked_add`/`checked_sub`/`checked_abs`; public keys are modelled as `Nat`.
Each handler returns its result together with the list of token transfers it
attempted (in source order), so that ordering of precondition checks relative
to fund movements is observable.  The Solana runtime commits a transaction
atomically: a handler error leaves the persisted state unchanged, which
`commit` captures.
-/

set_option maxHeartbeats 1000000

namespace CartoonistAuction

/-- Modulus for 64-bit unsigned values (`u64` in the source). -/
def U64_MOD : Nat := 2 ^ 64

/-- `u64::checked_add` on in-range operands: `none` on overflow past `2^64 - 1`. -/
def checkedAddU64 (a b : Nat) : Option Nat :=
  if a + b < U64_MOD then some (a + b) else none

/-- `u64::checked_sub`: `none` on underflow. -/
def checkedSubU64 (a b : Nat) : Option Nat :=
  if b ≤ a then some (a - b) else none

/-- `i64::checked_abs`: fails exactly on `i64::MIN = -(2^63)`. -/
def checkedAbsI64 (c : Int) : Option Nat :=
  if c = -(2 ^ 63 : Int) then none else some c.natAbs

/-- The program's error codes, from `error.rs` (`AuctionError`). -/
inductive AuctionError
  | OnlyAgent
  | BidTooLow
  | BidNotActive
  | AmountBelowMinimum
  | InsufficientEscrow
  | WrongBidder
  | BidStillActive
  | ArithmeticOverflow
  | InvalidMintDecimals
  | InvalidAmountChange
deriving DecidableEq, Repr

/-- All failure modes of an instruction: a program error from `error.rs`, a
token-program (ledger) failure on a transfer, or an Anchor account-resolution
failure (e.g. `init` on an already-existing bid PDA, or a missing account). -/
inductive Err
  | auction (e : AuctionError)
  | insufficientFunds
  | accountError
deriving DecidableEq, Repr

/-- `state/auction_state.rs` (`AuctionState`); the `bump`/`escrow_bump` fields
are Solana PDA plumbing with no effect on the logic and are omitted. -/
structure AuctionState where
  agent : Nat
  usdcMint : Nat
  treasury : Nat
  minimumBid : Nat
  activeBidCount : Nat
deriving DecidableEq, Repr

/-- `state/bid.rs` (`Bid`); `bump` omitted as PDA plumbing. -/
structure Bid where
  bidder : Nat
  amount : Nat
  createdAt : Int
  updatedAt : Int
  active : Bool
deriving DecidableEq, Repr

/-- The persisted on-chain state the program touches: the singleton auction
state, the set of existing `Bid` accounts (keyed by bidder, since every bid
PDA is derived from the bidder key, hence at most one record per bidder),
each bidder's USDC wallet balance, and the escrow and treasury token-account
balances. -/
structure World where
  auction : AuctionState
  bids : List Bid
  bidderBal : Nat → Nat
  escrowBal : Nat
  treasuryBal : Nat

/-- Look up a bidder's bid account (the PDA at seeds `["bid", bidder]`). -/
def findBid (bids : List Bid) (k : Nat) : Option Bid :=
  bids.find? (fun b => b.bidder == k)

/-- Overwrite the bid account stored under key `k`. -/
def setBid (bids : List Bid) (k : Nat) (nb : Bid) : List Bid :=
  bids.map (fun b => if b.bidder == k then nb else b)

/-- Delete the bid account stored under key `k` (Anchor's `close = bidder`). -/
def removeBid (bids : List Bid) (k : Nat) : List Bid :=
  bids.filter (fun b => !(b.bidder == k))

/-- Number of bid records with `active == true`. -/
def activeCount (bids : List Bid) : Nat :=
  (bids.filter (fun b => b.active)).length

/-- Sum of `amount` over bid records with `active == true`. -/
def activeSum (bids : List Bid) : Nat :=
  ((bids.filter (fun b => b.active)).map (fun b => b.amount)).sum

/-- At most one bid record per bidder (guaranteed on chain by PDA derivation). -/
def keysNodup (bids : List Bid) : Prop :=
  (bids.map (fun b => b.bidder)).Nodup

/-- One `transfer_checked` call: bidder wallet → escrow (bidder-signed),
escrow → bidder wallet (custodial-authority-signed), or escrow → treasury
(custodial-authority-signed). -/
inductive Transfer
  | toEscrow (bidder amount : Nat)
  | escrowToBidder (bidder amount : Nat)
  | escrowToTreasury (amount : Nat)
deriving DecidableEq, Repr

/-- The ledger adapter: an exact-amount transfer that fails iff the source
balance is insufficient. -/
def applyTransfer (w : World) (t : Transfer) : Except Err World :=
  match t with
  | .toEscrow b a =>
      if a ≤ w.bidderBal b then
        .ok { w with
                bidderBal := fun k => if k = b then w.bidderBal b - a else w.bidderBal k,
                escrowBal := w.escrowBal + a }
      else .error .insufficientFunds
  | .escrowToBidder b a =>
      if a ≤ w.escrowBal then
        .ok { w with
                bidderBal := fun k => if k = b then w.bidderBal b + a else w.bidderBal k,
                escrowBal := w.escrowBal - a }
      else .error .insufficientFunds
  | .escrowToTreasury a =>
      if a ≤ w.escrowBal then
        .ok { w with
                escrowBal := w.escrowBal - a,
                treasuryBal := w.treasuryBal + a }
      else .error .insufficientFunds

/-- `instructions/place_bid.rs` `handler`, together with its `PlaceBid`
account constraints.  Anchor's `init` on the bid PDA fails when a record for
this bidder already exists; then `require!(amount >= state.minimum_bid,
BidTooLow)`; then the bidder-signed transfer into escrow; then the record is
populated (`created_at = updated_at = now`, `active = true`) and
`active_bid_count` is incremented with `checked_add`. -/
def placeBid (w : World) (caller amount : Nat) (now : Int) :
    Except Err World × List Transfer :=
  match findBid w.bids caller with
  | some _ => (.error .accountError, [])
  | none =>
      if amount < w.auction.minimumBid then
        (.error (.auction .BidTooLow), [])
      else
        let t := Transfer.toEscrow caller amount
        match applyTransfer w t with
        | .error e => (.error e, [t])
        | .ok w1 =>
            let bid : Bid :=
              { bidder := caller, amount := amount, createdAt := now,
                updatedAt := now, active := true }
            match checkedAddU64 w1.auction.activeBidCount 1 with
            | none => (.error (.auction .ArithmeticOverflow), [t])
            | some c =>
                (.ok { w1 with
                         bids := bid :: w1.bids,
                         auction := { w1.auction with activeBidCount := c } },
                 [t])

/-- `instructions/update_bid.rs` `handler`, with the `UpdateBid` constraints
(`bid.bidder == bidder @ WrongBidder`, `bid.active @ BidNotActive`).
Positive change: bidder-signed transfer into escrow, then `checked_add` on the
amount.  Negative change: `checked_abs` (→ `InvalidAmountChange`),
`checked_sub` (→ `InsufficientEscrow`), the minimum-bid floor check
(→ `AmountBelowMinimum`), then the custodial-authority-signed transfer back to
the bidder.  Zero change: no transfer.  Either way `updated_at = now`. -/
def updateBid (w : World) (caller : Nat) (amountChange : Int) (now : Int) :
    Except Err World × List Transfer :=
  match findBid w.bids caller with
  | none => (.error .accountError, [])
  | some bid =>
      if bid.bidder ≠ caller then (.error (.auction .WrongBidder), [])
      else if bid.active = false then (.error (.auction .BidNotActive), [])
      else if 0 < amountChange then
        let increase := amountChange.toNat
        let t := Transfer.toEscrow caller increase
        match applyTransfer w t with
        | .error e => (.error e, [t])
        | .ok w1 =>
            match checkedAddU64 bid.amount increase with
            | none => (.error (.auction .ArithmeticOverflow), [t])
            | some na =>
                (.ok { w1 with
                         bids := setBid w1.bids caller
                           { bid with amount := na, updatedAt := now } },
                 [t])
      else if amountChange < 0 then
        match checkedAbsI64 amountChange with
        | none => (.error (.auction .InvalidAmountChange), [])
        | some decrease =>
            match checkedSubU64 bid.amount decrease with
            | none => (.error (.auction .InsufficientEscrow), [])
            | some na =>
                if na < w.auction.minimumBid then
                  (.error (.auction .AmountBelowMinimum), [])
                else
                  let t := Transfer.escrowToBidder caller decrease
                  match applyTransfer w t with
                  | .error e => (.error e, [t])
                  | .ok w1 =>
                      (.ok { w1 with
                               bids := setBid w1.bids caller
                                 { bid with amount := na, updatedAt := now } },
                       [t])
      else
        (.ok { w with
                 bids := setBid w.bids caller { bid with updatedAt := now } },
         [])

/-- `instructions/withdraw_bid.rs` `handler`, with the `WithdrawBid`
constraints (`WrongBidder`, `BidNotActive`, and `close = bidder` on the bid
account).  The full amount is returned to the bidder by a
custodial-authority-signed transfer, `active_bid_count` is decremented with
`checked_sub`, and the bid account is closed (destroyed) at the end of the
instruction. -/
def withdrawBid (w : World) (caller : Nat) :
    Except Err World × List Transfer :=
  match findBid w.bids caller with
  | none => (.error .accountError, [])
  | some bid =>
      if bid.bidder ≠ caller then (.error (.auction .WrongBidder), [])
      else if bid.active = false then (.error (.auction .BidNotActive), [])
      else
        let t := Transfer.escrowToBidder caller bid.amount
        match applyTransfer w t with
        | .error e => (.error e, [t])
        | .ok w1 =>
            match checkedSubU64 w1.auction.activeBidCount 1 with
            | none => (.error (.auction .ArithmeticOverflow), [t])
            | some c =>
                (.ok { w1 with
                         auction := { w1.auction with activeBidCount := c },
                         bids := removeBid w1.bids caller },
                 [t])

/-- `instructions/settle.rs` `handler`, with the `Settle` constraints
(`has_one = agent @ OnlyAgent`, `winning_bid.active @ BidNotActive`).  The
designated winning record is deactivated, `active_bid_count` decremented with
`checked_sub`, and only then is the full amount moved escrow → treasury by
custodial authority.  The record itself is not closed. -/
def settle (w : World) (caller winner : Nat) :
    Except Err World × List Transfer :=
  if caller ≠ w.auction.agent then (.error (.auction .OnlyAgent), [])
  else
    match findBid w.bids winner with
    | none => (.error .accountError, [])
    | some bid =>
        if bid.active = false then (.error (.auction .BidNotActive), [])
        else
          match checkedSubU64 w.auction.activeBidCount 1 with
          | none => (.error (.auction .ArithmeticOverflow), [])
          | some c =>
              let w1 : World :=
                { w with
                    bids := setBid w.bids winner { bid with active := false },
                    auction := { w.auction with activeBidCount := c } }
              let t := Transfer.escrowToTreasury bid.amount
              match applyTransfer w1 t with
              | .error e => (.error e, [t])
              | .ok w2 => (.ok w2, [t])

/-- `instructions/close_bid.rs`: the handler body is empty; all the work is
the `CloseBid` constraints (`!bid.active @ BidStillActive`, then
`bid.bidder == bidder @ WrongBidder`) and Anchor's `close = bidder`, which
destroys the record and refunds its storage deposit.  No token transfer. -/
def closeBid (w : World) (caller : Nat) :
    Except Err World × List Transfer :=
  match findBid w.bids caller with
  | none => (.error .accountError, [])
  | some bid =>
      if bid.active = true then (.error (.auction .BidStillActive), [])
      else if bid.bidder ≠ caller then (.error (.auction .WrongBidder), [])
      else (.ok { w with bids := removeBid w.bids caller }, [])

/-- `instructions/set_minimum_bid.rs`: agent-only (`has_one = agent @
OnlyAgent`); overwrites `minimum_bid` unconditionally, touching nothing
else. -/
def setMinimumBid (w : World) (caller newMinimumBid : Nat) :
    Except Err World × List Transfer :=
  if caller ≠ w.auction.agent then (.error (.auction .OnlyAgent), [])
  else
    (.ok { w with auction := { w.auction with minimumBid := newMinimumBid } },
     [])

/-- `instructions/set_agent.rs`: agent-only; overwrites `agent` with the
supplied key. -/
def setAgent (w : World) (caller newAgent : Nat) :
    Except Err World × List Transfer :=
  if caller ≠ w.auction.agent then (.error (.auction .OnlyAgent), [])
  else
    (.ok { w with auction := { w.auction with agent := newAgent } }, [])

/-- The world right after `instructions/initialize.rs`: the singleton auction
state with `active_bid_count = 0`, a freshly created empty escrow account, no
bid records, and arbitrary pre-existing bidder wallet balances. -/
def initWorld (agent usdcMint treasury minimumBid : Nat)
    (bidderBal : Nat → Nat) : World :=
  { auction :=
      { agent := agent, usdcMint := usdcMint, treasury := treasury,
        minimumBid := minimumBid, activeBidCount := 0 },
    bids := [],
    bidderBal := bidderBal,
    escrowBal := 0,
    treasuryBal := 0 }

/-- One top-level instruction of the deployed program (`lib.rs`), with its
caller and arguments. -/
inductive Op
  | placeBid (caller amount : Nat) (now : Int)
  | updateBid (caller : Nat) (amountChange : Int) (now : Int)
  | withdrawBid (caller : Nat)
  | settle (caller winner : Nat)
  | closeBid (caller : Nat)
  | setMinimumBid (caller newMinimumBid : Nat)
  | setAgent (caller newAgent : Nat)

/-- Run one instruction, returning the handler result and the transfers it
attempted. -/
def runOp (w : World) : Op → Except Err World × List Transfer
  | .placeBid caller amount now => placeBid w caller amount now
  | .updateBid caller c now => updateBid w caller c now
  | .withdrawBid caller => withdrawBid w caller
  | .settle caller winner => settle w caller winner
  | .closeBid caller => closeBid w caller
  | .setMinimumBid caller v => setMinimumBid w caller v
  | .setAgent caller a => setAgent w caller a

/-- The Solana runtime commits a transaction atomically: on any handler
error, no state change persists. -/
def commit (w : World) (op : Op) : World :=
  match (runOp w op).1 with
  | .ok w1 => w1
  | .error _ => w

/-- Instruction arguments lie in their machine-integer ranges: amounts are
`u64`, `amount_change` is `i64`. -/
def Op.wf : Op → Prop
  | .placeBid _ amount _ => amount < U64_MOD
  | .updateBid _ c _ => -(2 ^ 63 : Int) ≤ c ∧ c < 2 ^ 63
  | .setMinimumBid _ v => v < U64_MOD
  | _ => True

/-- States reachable from initialization by sequences of successful
instructions. -/
inductive Reachable : World → Prop
  | init (agent usdcMint treasury minimumBid : Nat) (bidderBal : Nat → Nat) :
      Reachable (initWorld agent usdcMint treasury minimumBid bidderBal)
  | step {w w1 : World} {op : Op} :
      Reachable w → op.wf → (runOp w op).1 = .ok w1 → Reachable w1

/-! ### Lookup and bookkeeping lemmas -/

theorem findBid_bidder {bids : List Bid} {k : Nat} {b : Bid}
    (h : findBid bids k = some b) : b.bidder = k := by
  have := List.find?_some h
  simpa using this

theorem findBid_mem {bids : List Bid} {k : Nat} {b : Bid}
    (h : findBid bids k = some b) : b ∈ bids :=
  List.mem_of_find?_eq_some h

theorem findBid_none {bids : List Bid} {k : Nat}
    (h : findBid bids k = none) : ∀ b ∈ bids, b.bidder ≠ k := by
  intro b hb
  have := List.find?_eq_none.mp h b hb
  simpa using this

theorem findBid_cons_self {b : Bid} {bids : List Bid} {k : Nat}
    (h : b.bidder = k) : findBid (b :: bids) k = some b := by
  simp [findBid, List.find?_cons, h]

theorem activeCount_cons (b : Bid) (bids : List Bid) :
    activeCount (b :: bids)
      = (if b.active then 1 else 0) + activeCount bids := by
  cases hb : b.active
  · simp [activeCount, List.filter_cons, hb]
  · simp [activeCount, List.filter_cons, hb]
    omega

theorem activeSum_cons (b : Bid) (bids : List Bid) :
    activeSum (b :: bids)
      = (if b.active then b.amount else 0) + activeSum bids := by
  cases hb : b.active
  · simp [activeSum, List.filter_cons, hb]
  · simp [activeSum, List.filter_cons, hb]

theorem setBid_cons_pos {x : Bid} {xs : List Bid} {k : Nat} {nb : Bid}
    (hxb : (x.bidder == k) = true) :
    setBid (x :: xs) k nb = nb :: setBid xs k nb := by
  simp only [setBid, List.map_cons, if_pos hxb]

theorem setBid_cons_neg {x : Bid} {xs : List Bid} {k : Nat} {nb : Bid}
    (hxb : ¬(x.bidder == k) = true) :
    setBid (x :: xs) k nb = x :: setBid xs k nb := by
  simp only [setBid, List.map_cons, if_neg hxb]

theorem setBid_of_forall_ne {bids : List Bid} {k : Nat} {nb : Bid}
    (h : ∀ b ∈ bids, b.bidder ≠ k) : setBid bids k nb = bids := by
  induction bids with
  | nil => rfl
  | cons x xs ih =>
      have hx : ¬(x.bidder == k) = true := by
        simpa using h x (List.mem_cons_self x xs)
      have hxs : ∀ b ∈ xs, b.bidder ≠ k := fun b hb => h b (List.mem_cons_of_mem x hb)
      simp only [setBid, List.map_cons, if_neg hx]
      exact congrArg (x :: ·) (ih hxs)

theorem setBid_activeCount (nb : Bid) {bids : List Bid} {k : Nat} {b : Bid}
    (hnd : keysNodup bids) (hf : findBid bids k = some b) :
    activeCount (setBid bids k nb) + (if b.active then 1 else 0)
      = activeCount bids + (if nb.active then 1 else 0) := by
  induction bids with
  | nil => simp [findBid] at hf
  | cons x xs ih =>
      have hnd' : keysNodup xs := by
        simpa [keysNodup] using (List.nodup_cons.mp (by simpa [keysNodup] using hnd)).2
      have hx_notin : x.bidder ∉ xs.map (fun b => b.bidder) :=
        (List.nodup_cons.mp (by simpa [keysNodup] using hnd)).1
      by_cases hk : x.bidder = k
      · have hxb : (x.bidder == k) = true := by simpa using hk
        have hb : b = x := by
          have := @findBid_cons_self x xs k hk
          rw [this] at hf; exact (Option.some.injEq _ _ ▸ hf.symm)
        subst hb
        have hrest : setBid xs k nb = xs := by
          refine setBid_of_forall_ne fun c hc hck => hx_notin ?_
          rw [hk, ← hck]
          exact List.mem_map_of_mem (fun b => b.bidder) hc
        rw [setBid_cons_pos hxb, hrest, activeCount_cons, activeCount_cons]
        omega
      · have hxb : ¬(x.bidder == k) = true := by simpa using hk
        have hf' : findBid xs k = some b := by
          simpa [findBid, List.find?_cons, hxb] using hf
        have := ih hnd' hf'
        rw [setBid_cons_neg hxb, activeCount_cons, activeCount_cons]
        omega

theorem setBid_activeSum (nb : Bid) {bids : List Bid} {k : Nat} {b : Bid}
    (hnd : keysNodup bids) (hf : findBid bids k = some b) :
    activeSum (setBid bids k nb) + (if b.active then b.amount else 0)
      = activeSum bids + (if nb.active then nb.amount else 0) := by
  induction bids with
  | nil => simp [findBid] at hf
  | cons x xs ih =>
      have hnd' : keysNodup xs := by
        simpa [keysNodup] using (List.nodup_cons.mp (by simpa [keysNodup] using hnd)).2
      have hx_notin : x.bidder ∉ xs.map (fun b => b.bidder) :=
        (List.nodup_cons.mp (by simpa [keysNodup] using hnd)).1
      by_cases hk : x.bidder = k
      · have hxb : (x.bidder == k) = true := by simpa using hk
        have hb : b = x := by
          have := @findBid_cons_self x xs k hk
          rw [this] at hf; exact (Option.some.injEq _ _ ▸ hf.symm)
        subst hb
        have hrest : setBid xs k nb = xs := by
          refine setBid_of_forall_ne fun c hc hck => hx_notin ?_
          rw [hk, ← hck]
          exact List.mem_map_of_mem (fun b => b.bidder) hc
        rw [setBid_cons_pos hxb, hrest, activeSum_cons, activeSum_cons]
        omega
      · have hxb : ¬(x.bidder == k) = true := by simpa using hk
        have hf' : findBid xs k = some b := by
          simpa [findBid, List.find?_cons, hxb] using hf
        have := ih hnd' hf'
        rw [setBid_cons_neg hxb, activeSum_cons, activeSum_cons]
        omega

theorem removeBid_cons_pos {x : Bid} {xs : List Bid} {k : Nat}
    (hxb : (x.bidder == k) = true) :
    removeBid (x :: xs) k = removeBid xs k := by
  simp [removeBid, List.filter_cons, hxb]

theorem removeBid_cons_neg {x : Bid} {xs : List Bid} {k : Nat}
    (hxb : ¬(x.bidder == k) = true) :
    removeBid (x :: xs) k = x :: removeBid xs k := by
  simp only [removeBid, List.filter_cons]
  rw [if_pos]
  simp [hxb]

theorem removeBid_of_forall_ne {bids : List Bid} {k : Nat}
    (h : ∀ b ∈ bids, b.bidder ≠ k) : removeBid bids k = bids := by
  induction bids with
  | nil => rfl
  | cons x xs ih =>
      have hx : ¬(x.bidder == k) = true := by
        simpa using h x (List.mem_cons_self x xs)
      rw [removeBid_cons_neg hx,
        ih fun b hb => h b (List.mem_cons_of_mem x hb)]

theorem removeBid_activeCount {bids : List Bid} {k : Nat} {b : Bid}
    (hnd : keysNodup bids) (hf : findBid bids k = some b) :
    activeCount (removeBid bids k) + (if b.active then 1 else 0)
      = activeCount bids := by
  induction bids with
  | nil => simp [findBid] at hf
  | cons x xs ih =>
      have hnd' : keysNodup xs := by
        simpa [keysNodup] using (List.nodup_cons.mp (by simpa [keysNodup] using hnd)).2
      have hx_notin : x.bidder ∉ xs.map (fun b => b.bidder) :=
        (List.nodup_cons.mp (by simpa [keysNodup] using hnd)).1
      by_cases hk : x.bidder = k
      · have hxb : (x.bidder == k) = true := by simpa using hk
        have hb : b = x := by
          have := @findBid_cons_self x xs k hk
          rw [this] at hf; exact (Option.some.injEq _ _ ▸ hf.symm)
        subst hb
        have hrest : removeBid xs k = xs := by
          refine removeBid_of_forall_ne fun c hc hck => hx_notin ?_
          rw [hk, ← hck]
          exact List.mem_map_of_mem (fun b => b.bidder) hc
        rw [removeBid_cons_pos hxb, hrest, activeCount_cons]
        omega
      · have hxb : ¬(x.bidder == k) = true := by simpa using hk
        have hf' : findBid xs k = some b := by
          simpa [findBid, List.find?_cons, hxb] using hf
        have := ih hnd' hf'
        rw [removeBid_cons_neg hxb, activeCount_cons, activeCount_cons]
        omega

theorem removeBid_activeSum {bids : List Bid} {k : Nat} {b : Bid}
    (hnd : keysNodup bids) (hf : findBid bids k = some b) :
    activeSum (removeBid bids k) + (if b.active then b.amount else 0)
      = activeSum bids := by
  induction bids with
  | nil => simp [findBid] at hf
  | cons x xs ih =>
      have hnd' : keysNodup xs := by
        simpa [keysNodup] using (List.nodup_cons.mp (by simpa [keysNodup] using hnd)).2
      have hx_notin : x.bidder ∉ xs.map (fun b => b.bidder) :=
        (List.nodup_cons.mp (by simpa [keysNodup] using hnd)).1
      by_cases hk : x.bidder = k
      · have hxb : (x.bidder == k) = true := by simpa using hk
        have hb : b = x := by
          have := @findBid_cons_self x xs k hk
          rw [this] at hf; exact (Option.some.injEq _ _ ▸ hf.symm)
        subst hb
        have hrest : removeBid xs k = xs := by
          refine removeBid_of_forall_ne fun c hc hck => hx_notin ?_
          rw [hk, ← hck]
          exact List.mem_map_of_mem (fun b => b.bidder) hc
        rw [removeBid_cons_pos hxb, hrest, activeSum_cons]
        omega
      · have hxb : ¬(x.bidder == k) = true := by simpa using hk
        have hf' : findBid xs k = some b := by
          simpa [findBid, List.find?_cons, hxb] using hf
        have := ih hnd' hf'
        rw [removeBid_cons_neg hxb, activeSum_cons, activeSum_cons]
        omega

theorem keysNodup_cons {b : Bid} {bids : List Bid}
    (hf : findBid bids b.bidder = none) (hnd : keysNodup bids) :
    keysNodup (b :: bids) := by
  have hne := findBid_none hf
  refine List.nodup_cons.mpr ⟨?_, by simpa [keysNodup] using hnd⟩
  intro hmem
  rcases List.mem_map.mp hmem with ⟨c, hc, hcb⟩
  exact hne c hc hcb

theorem setBid_keys {bids : List Bid} {k : Nat} {nb : Bid}
    (h : nb.bidder = k) :
    (setBid bids k nb).map (fun b => b.bidder) = bids.map (fun b => b.bidder) := by
  induction bids with
  | nil => rfl
  | cons x xs ih =>
      by_cases hk : x.bidder = k
      · have hxb : (x.bidder == k) = true := by simpa using hk
        rw [setBid_cons_pos hxb]
        simp only [List.map_cons, ih, h, hk]
      · have hxb : ¬(x.bidder == k) = true := by simpa using hk
        rw [setBid_cons_neg hxb]
        simp only [List.map_cons, ih]

theorem setBid_keysNodup {bids : List Bid} {k : Nat} {nb : Bid}
    (h : nb.bidder = k) (hnd : keysNodup bids) :
    keysNodup (setBid bids k nb) := by
  unfold keysNodup at *
  rw [setBid_keys h]
  exact hnd

theorem removeBid_keysNodup {bids : List Bid} {k : Nat}
    (hnd : keysNodup bids) : keysNodup (removeBid bids k) := by
  unfold keysNodup at *
  exact ((List.filter_sublist bids).map (fun b => b.bidder)).nodup hnd

theorem findBid_setBid_self {bids : List Bid} {k : Nat} {b nb : Bid}
    (hf : findBid bids k = some b) (h : nb.bidder = k) :
    findBid (setBid bids k nb) k = some nb := by
  induction bids with
  | nil => simp [findBid] at hf
  | cons x xs ih =>
      by_cases hk : x.bidder = k
      · have hxb : (x.bidder == k) = true := by simpa using hk
        rw [setBid_cons_pos hxb]
        exact findBid_cons_self h
      · have hxb : ¬(x.bidder == k) = true := by simpa using hk
        have hf' : findBid xs k = some b := by
          simpa [findBid, List.find?_cons, hxb] using hf
        rw [setBid_cons_neg hxb]
        simpa [findBid, List.find?_cons, hxb] using ih hf'

theorem findBid_removeBid_self (bids : List Bid) (k : Nat) :
    findBid (removeBid bids k) k = none := by
  refine List.find?_eq_none.mpr fun b hb => ?_
  have := List.of_mem_filter hb
  simpa using this

/-! ### Ledger-adapter inversion lemmas -/

theorem applyTransfer_error {w : World} {t : Transfer} {e : Err}
    (h : applyTransfer w t = .error e) : e = .insufficientFunds := by
  cases t <;> simp only [applyTransfer] at h <;> split at h <;> simp_all

theorem toEscrow_ok {w w1 : World} {b a : Nat}
    (h : applyTransfer w (.toEscrow b a) = .ok w1) :
    a ≤ w.bidderBal b ∧
      w1 = { w with
               bidderBal := fun k => if k = b then w.bidderBal b - a else w.bidderBal k,
               escrowBal := w.escrowBal + a } := by
  simp only [applyTransfer] at h
  split at h
  · exact ⟨by assumption, by injection h with h1; exact h1.symm⟩
  · simp at h

theorem escrowToBidder_ok {w w1 : World} {b a : Nat}
    (h : applyTransfer w (.escrowToBidder b a) = .ok w1) :
    a ≤ w.escrowBal ∧
      w1 = { w with
               bidderBal := fun k => if k = b then w.bidderBal b + a else w.bidderBal k,
               escrowBal := w.escrowBal - a } := by
  simp only [applyTransfer] at h
  split at h
  · exact ⟨by assumption, by injection h with h1; exact h1.symm⟩
  · simp at h

theorem escrowToTreasury_ok {w w1 : World} {a : Nat}
    (h : applyTransfer w (.escrowToTreasury a) = .ok w1) :
    a ≤ w.escrowBal ∧
      w1 = { w with
               escrowBal := w.escrowBal - a,
               treasuryBal := w.treasuryBal + a } := by
  simp only [applyTransfer] at h
  split at h
  · exact ⟨by assumption, by injection h with h1; exact h1.symm⟩
  · simp at h

/-! ### Checked-arithmetic inversion lemmas -/

theorem checkedAddU64_some {a b c : Nat} (h : checkedAddU64 a b = some c) :
    c = a + b ∧ a + b < U64_MOD := by
  unfold checkedAddU64 at h
  split at h <;> simp_all

theorem checkedSubU64_some {a b c : Nat} (h : checkedSubU64 a b = some c) :
    b ≤ a ∧ c = a - b := by
  unfold checkedSubU64 at h
  split at h <;> simp_all

theorem checkedAbsI64_some {c : Int} {d : Nat} (h : checkedAbsI64 c = some d) :
    d = c.natAbs := by
  unfold checkedAbsI64 at h
  split at h <;> simp_all

/-! ### The global accounting invariant -/

/-- The accounting invariant tying the auction state to the bid records and
the escrow balance: at most one record per bidder, `active_bid_count` equal
to the number of active records, and the escrow balance equal to the sum of
active amounts. -/
def Inv (w : World) : Prop :=
  keysNodup w.bids ∧
  w.auction.activeBidCount = activeCount w.bids ∧
  w.escrowBal = activeSum w.bids

theorem inv_initWorld (agent usdcMint treasury minimumBid : Nat)
    (bidderBal : Nat → Nat) :
    Inv (initWorld agent usdcMint treasury minimumBid bidderBal) := by
  refine ⟨?_, ?_, ?_⟩ <;> simp [initWorld, keysNodup, activeCount, activeSum]

theorem inv_placeBid {w w1 : World} {c a : Nat} {now : Int}
    (hI : Inv w) (h : (placeBid w c a now).1 = .ok w1) : Inv w1 := by
  obtain ⟨hnd, hcount, hsum⟩ := hI
  cases hfb : findBid w.bids c with
  | some b => simp [placeBid, hfb] at h
  | none =>
      simp only [placeBid, hfb] at h
      split at h
      · simp at h
      · cases ht : applyTransfer w (.toEscrow c a) with
        | error e => rw [ht] at h; simp at h
        | ok wt =>
            rw [ht] at h
            dsimp only at h
            obtain ⟨hle, hwt⟩ := toEscrow_ok ht
            cases hadd : checkedAddU64 wt.auction.activeBidCount 1 with
            | none => rw [hadd] at h; simp at h
            | some cnt =>
                rw [hadd] at h
                dsimp only at h
                obtain ⟨hcnt, hlt⟩ := checkedAddU64_some hadd
                subst hwt
                simp only [] at hcnt
                have hw1 :
                    w1 = { w with
                             bidderBal := fun k =>
                               if k = c then w.bidderBal c - a else w.bidderBal k,
                             escrowBal := w.escrowBal + a,
                             bids := ({ bidder := c, amount := a, createdAt := now,
                                        updatedAt := now, active := true } : Bid) :: w.bids,
                             auction := { w.auction with activeBidCount := cnt } } := by
                  simpa using h.symm
                subst hw1
                have hcnt' : cnt = w.auction.activeBidCount + 1 := by
                  simpa using hcnt
                refine ⟨keysNodup_cons (by simpa using hfb) hnd, ?_, ?_⟩
                · simp only [activeCount_cons]
                  simp
                  omega
                · simp only [activeSum_cons]
                  simp
                  omega

theorem inv_updateBid {w w1 : World} {c : Nat} {ch now : Int}
    (hI : Inv w) (h : (updateBid w c ch now).1 = .ok w1) : Inv w1 := by
  obtain ⟨hnd, hcount, hsum⟩ := hI
  cases hfb : findBid w.bids c with
  | none => simp [updateBid, hfb] at h
  | some bid =>
      have hbidder := findBid_bidder hfb
      simp only [updateBid, hfb] at h
      rw [if_neg (by simp [hbidder])] at h
      by_cases hact : bid.active = false
      · rw [if_pos hact] at h; simp at h
      · rw [if_neg hact] at h
        have hactT : bid.active = true := by
          cases hb2 : bid.active
          · exact absurd hb2 hact
          · rfl
        by_cases hpos : 0 < ch
        · rw [if_pos hpos] at h
          cases ht : applyTransfer w (.toEscrow c ch.toNat) with
          | error e => rw [ht] at h; simp at h
          | ok wt =>
              rw [ht] at h; dsimp only at h
              obtain ⟨hle, hwt⟩ := toEscrow_ok ht
              subst hwt
              cases hadd : checkedAddU64 bid.amount ch.toNat with
              | none => rw [hadd] at h; simp at h
              | some na =>
                  rw [hadd] at h; dsimp only at h
                  obtain ⟨hna, hltm⟩ := checkedAddU64_some hadd
                  have hw1 :
                      w1 = { w with
                               bidderBal := fun k =>
                                 if k = c then w.bidderBal c - ch.toNat else w.bidderBal k,
                               escrowBal := w.escrowBal + ch.toNat,
                               bids := setBid w.bids c
                                 { bid with amount := na, updatedAt := now } } := by
                    simpa using h.symm
                  subst hw1
                  have hset := setBid_activeCount
                    { bid with amount := na, updatedAt := now } hnd hfb
                  have hsets := setBid_activeSum
                    { bid with amount := na, updatedAt := now } hnd hfb
                  simp only [hactT, if_true] at hset hsets
                  refine ⟨setBid_keysNodup (by simpa using hbidder) hnd, ?_, ?_⟩
                  · show w.auction.activeBidCount
                        = activeCount (setBid w.bids c { bid with amount := na, updatedAt := now })
                    rw [hactT]
                    omega
                  · show w.escrowBal + ch.toNat
                        = activeSum (setBid w.bids c { bid with amount := na, updatedAt := now })
                    rw [hactT]
                    omega
        · rw [if_neg hpos] at h
          by_cases hneg : ch < 0
          · rw [if_pos hneg] at h
            cases habs : checkedAbsI64 ch with
            | none => rw [habs] at h; simp at h
            | some dec =>
                rw [habs] at h; dsimp only at h
                cases hsub : checkedSubU64 bid.amount dec with
                | none => rw [hsub] at h; simp at h
                | some na =>
                    rw [hsub] at h; dsimp only at h
                    obtain ⟨hdle, hna⟩ := checkedSubU64_some hsub
                    split at h
                    · simp at h
                    · cases ht : applyTransfer w (.escrowToBidder c dec) with
                      | error e => rw [ht] at h; simp at h
                      | ok wt =>
                          rw [ht] at h; dsimp only at h
                          obtain ⟨hle, hwt⟩ := escrowToBidder_ok ht
                          subst hwt
                          have hw1 :
                              w1 = { w with
                                       bidderBal := fun k =>
                                         if k = c then w.bidderBal c + dec else w.bidderBal k,
                                       escrowBal := w.escrowBal - dec,
                                       bids := setBid w.bids c
                                         { bid with amount := na, updatedAt := now } } := by
                            simpa using h.symm
                          subst hw1
                          have hset := setBid_activeCount
                            { bid with amount := na, updatedAt := now } hnd hfb
                          have hsets := setBid_activeSum
                            { bid with amount := na, updatedAt := now } hnd hfb
                          simp only [hactT, if_true] at hset hsets
                          refine ⟨setBid_keysNodup (by simpa using hbidder) hnd, ?_, ?_⟩
                          · show w.auction.activeBidCount
                                = activeCount (setBid w.bids c { bid with amount := na, updatedAt := now })
                            rw [hactT]
                            omega
                          · show w.escrowBal - dec
                                = activeSum (setBid w.bids c { bid with amount := na, updatedAt := now })
                            rw [hactT]
                            omega
          · rw [if_neg hneg] at h
            dsimp only at h
            have hw1 :
                w1 = { w with
                         bids := setBid w.bids c { bid with updatedAt := now } } := by
              simpa using h.symm
            subst hw1
            have hset := setBid_activeCount
              { bid with updatedAt := now } hnd hfb
            have hsets := setBid_activeSum
              { bid with updatedAt := now } hnd hfb
            simp only [hactT, if_true] at hset hsets
            refine ⟨setBid_keysNodup (by simpa using hbidder) hnd, ?_, ?_⟩
            · show w.auction.activeBidCount
                  = activeCount (setBid w.bids c { bid with updatedAt := now })
              rw [hactT]
              omega
            · show w.escrowBal
                  = activeSum (setBid w.bids c { bid with updatedAt := now })
              rw [hactT]
              omega

theorem inv_withdrawBid {w w1 : World} {c : Nat}
    (hI : Inv w) (h : (withdrawBid w c).1 = .ok w1) : Inv w1 := by
  obtain ⟨hnd, hcount, hsum⟩ := hI
  cases hfb : findBid w.bids c with
  | none => simp [withdrawBid, hfb] at h
  | some bid =>
      have hbidder := findBid_bidder hfb
      simp only [withdrawBid, hfb] at h
      rw [if_neg (by simp [hbidder])] at h
      by_cases hact : bid.active = false
      · rw [if_pos hact] at h; simp at h
      · rw [if_neg hact] at h
        have hactT : bid.active = true := by
          cases hb2 : bid.active
          · exact absurd hb2 hact
          · rfl
        cases ht : applyTransfer w (.escrowToBidder c bid.amount) with
        | error e => rw [ht] at h; simp at h
        | ok wt =>
            rw [ht] at h; dsimp only at h
            obtain ⟨hle, hwt⟩ := escrowToBidder_ok ht
            subst hwt
            cases hsub : checkedSubU64 w.auction.activeBidCount 1 with
            | none => rw [show checkedSubU64 _ 1 = none by simpa using hsub] at h; simp at h
            | some cnt =>
                rw [show checkedSubU64 _ 1 = some cnt by simpa using hsub] at h
                dsimp only at h
                obtain ⟨hge, hcnt⟩ := checkedSubU64_some hsub
                have hw1 :
                    w1 = { w with
                             bidderBal := fun k =>
                               if k = c then w.bidderBal c + bid.amount else w.bidderBal k,
                             escrowBal := w.escrowBal - bid.amount,
                             auction := { w.auction with activeBidCount := cnt },
                             bids := removeBid w.bids c } := by
                  simpa using h.symm
                subst hw1
                have hrc := removeBid_activeCount hnd hfb
                have hrs := removeBid_activeSum hnd hfb
                simp only [hactT, if_true] at hrc hrs
                refine ⟨removeBid_keysNodup hnd, ?_, ?_⟩
                · show cnt = activeCount (removeBid w.bids c)
                  omega
                · show w.escrowBal - bid.amount = activeSum (removeBid w.bids c)
                  omega

theorem inv_settle {w w1 : World} {c winner : Nat}
    (hI : Inv w) (h : (settle w c winner).1 = .ok w1) : Inv w1 := by
  obtain ⟨hnd, hcount, hsum⟩ := hI
  simp only [settle] at h
  split at h
  · simp at h
  · cases hfb : findBid w.bids winner with
    | none => rw [hfb] at h; simp at h
    | some bid =>
        rw [hfb] at h; dsimp only at h
        have hbidder := findBid_bidder hfb
        by_cases hact : bid.active = false
        · rw [if_pos hact] at h; simp at h
        · rw [if_neg hact] at h
          have hactT : bid.active = true := by
            cases hb2 : bid.active
            · exact absurd hb2 hact
            · rfl
          cases hsub : checkedSubU64 w.auction.activeBidCount 1 with
          | none => rw [hsub] at h; simp at h
          | some cnt =>
              rw [hsub] at h; dsimp only at h
              obtain ⟨hge, hcnt⟩ := checkedSubU64_some hsub
              cases ht : applyTransfer
                  { w with
                      bids := setBid w.bids winner { bid with active := false },
                      auction := { w.auction with activeBidCount := cnt } }
                  (.escrowToTreasury bid.amount) with
              | error e => rw [ht] at h; simp at h
              | ok wt =>
                  rw [ht] at h; dsimp only at h
                  obtain ⟨hle, hwt⟩ := escrowToTreasury_ok ht
                  simp only at hle hwt
                  have hw1 : w1 = wt := by simpa using h.symm
                  subst hw1
                  subst hwt
                  have hset := setBid_activeCount
                    { bid with active := false } hnd hfb
                  have hsets := setBid_activeSum
                    { bid with active := false } hnd hfb
                  simp [hactT] at hset hsets
                  refine ⟨setBid_keysNodup (by simpa using hbidder) hnd, ?_, ?_⟩
                  · show cnt = activeCount (setBid w.bids winner { bid with active := false })
                    omega
                  · show w.escrowBal - bid.amount
                        = activeSum (setBid w.bids winner { bid with active := false })
                    omega

theorem inv_closeBid {w w1 : World} {c : Nat}
    (hI : Inv w) (h : (closeBid w c).1 = .ok w1) : Inv w1 := by
  obtain ⟨hnd, hcount, hsum⟩ := hI
  cases hfb : findBid w.bids c with
  | none => simp [closeBid, hfb] at h
  | some bid =>
      simp only [closeBid, hfb] at h
      by_cases hact : bid.active = true
      · rw [if_pos hact] at h; simp at h
      · rw [if_neg hact] at h
        have hactF : bid.active = false := by
          cases hb2 : bid.active
          · rfl
          · exact absurd hb2 hact
        split at h
        · simp at h
        · dsimp only at h
          have hw1 : w1 = { w with bids := removeBid w.bids c } := by
            simpa using h.symm
          subst hw1
          have hrc := removeBid_activeCount hnd hfb
          have hrs := removeBid_activeSum hnd hfb
          simp [hactF] at hrc hrs
          refine ⟨removeBid_keysNodup hnd, ?_, ?_⟩
          · show w.auction.activeBidCount = activeCount (removeBid w.bids c)
            omega
          · show w.escrowBal = activeSum (removeBid w.bids c)
            omega

theorem inv_setMinimumBid {w w1 : World} {c v : Nat}
    (hI : Inv w) (h : (setMinimumBid w c v).1 = .ok w1) : Inv w1 := by
  obtain ⟨hnd, hcount, hsum⟩ := hI
  simp only [setMinimumBid] at h
  split at h
  · simp at h
  · have hw1 : w1 = { w with auction := { w.auction with minimumBid := v } } := by
      simpa using h.symm
    subst hw1
    exact ⟨hnd, hcount, hsum⟩

theorem inv_setAgent {w w1 : World} {c a : Nat}
    (hI : Inv w) (h : (setAgent w c a).1 = .ok w1) : Inv w1 := by
  obtain ⟨hnd, hcount, hsum⟩ := hI
  simp only [setAgent] at h
  split at h
  · simp at h
  · have hw1 : w1 = { w with auction := { w.auction with agent := a } } := by
      simpa using h.symm
    subst hw1
    exact ⟨hnd, hcount, hsum⟩

theorem inv_runOp {w w1 : World} {op : Op}
    (hI : Inv w) (h : (runOp w op).1 = .ok w1) : Inv w1 := by
  cases op with
  | placeBid c a now => exact inv_placeBid hI h
  | updateBid c ch now => exact inv_updateBid hI h
  | withdrawBid c => exact inv_withdrawBid hI h
  | settle c winner => exact inv_settle hI h
  | closeBid c => exact inv_closeBid hI h
  | setMinimumBid c v => exact inv_setMinimumBid hI h
  | setAgent c a => exact inv_setAgent hI h

theorem reachable_inv {w : World} (h : Reachable w) : Inv w := by
  induction h with
  | init agent usdcMint treasury minimumBid bidderBal =>
      exact inv_initWorld agent usdcMint treasury minimumBid bidderBal
  | step _ _ hok ih => exact inv_runOp ih hok

/-! ### Ordering of precondition checks and fund movements -/

/-- Errors raised by precondition checks (authorization, lifecycle state,
value floors, accounting floors, account resolution), as opposed to checked
arithmetic (which the handlers perform where the source performs it, in some
handlers after the transfer CPI) and ledger failures (which require
attempting the transfer). -/
def Err.isPrecondCheck : Err → Bool
  | .auction .ArithmeticOverflow => false
  | .insufficientFunds => false
  | _ => true

theorem placeBid_trace (w : World) (c a : Nat) (now : Int) :
    (placeBid w c a now).2 = [] ∨
      (∃ w1, (placeBid w c a now).1 = .ok w1) ∨
      (placeBid w c a now).1 = .error .insufficientFunds ∨
      (placeBid w c a now).1 = .error (.auction .ArithmeticOverflow) := by
  simp only [placeBid]
  split
  · left; rfl
  · split
    · left; rfl
    · split
      · rename_i e ht
        right; right; left
        simp [applyTransfer_error ht]
      · split
        · right; right; right; rfl
        · right; left; exact ⟨_, rfl⟩

theorem updateBid_trace (w : World) (c : Nat) (ch now : Int) :
    (updateBid w c ch now).2 = [] ∨
      (∃ w1, (updateBid w c ch now).1 = .ok w1) ∨
      (updateBid w c ch now).1 = .error .insufficientFunds ∨
      (updateBid w c ch now).1 = .error (.auction .ArithmeticOverflow) := by
  simp only [updateBid]
  split
  · left; rfl
  · split
    · left; rfl
    · split
      · left; rfl
      · split
        · split
          · rename_i e ht
            right; right; left
            simp [applyTransfer_error ht]
          · split
            · right; right; right; rfl
            · right; left; exact ⟨_, rfl⟩
        · split
          · split
            · left; rfl
            · split
              · left; rfl
              · split
                · left; rfl
                · split
                  · rename_i e ht
                    right; right; left
                    simp [applyTransfer_error ht]
                  · right; left; exact ⟨_, rfl⟩
          · right; left; exact ⟨_, rfl⟩

theorem withdrawBid_trace (w : World) (c : Nat) :
    (withdrawBid w c).2 = [] ∨
      (∃ w1, (withdrawBid w c).1 = .ok w1) ∨
      (withdrawBid w c).1 = .error .insufficientFunds ∨
      (withdrawBid w c).1 = .error (.auction .ArithmeticOverflow) := by
  simp only [withdrawBid]
  split
  · left; rfl
  · split
    · left; rfl
    · split
      · left; rfl
      · split
        · rename_i e ht
          right; right; left
          simp [applyTransfer_error ht]
        · split
          · right; right; right; rfl
          · right; left; exact ⟨_, rfl⟩

theorem settle_trace (w : World) (c winner : Nat) :
    (settle w c winner).2 = [] ∨
      (∃ w1, (settle w c winner).1 = .ok w1) ∨
      (settle w c winner).1 = .error .insufficientFunds := by
  simp only [settle]
  split
  · left; rfl
  · split
    · left; rfl
    · split
      · left; rfl
      · split
        · left; rfl
        · split
          · rename_i e ht
            right; right
            simp [applyTransfer_error ht]
          · right; left; exact ⟨_, rfl⟩

theorem closeBid_trace (w : World) (c : Nat) : (closeBid w c).2 = [] := by
  simp only [closeBid]
  split
  · rfl
  · split
    · rfl
    · split
      · rfl
      · rfl

theorem setMinimumBid_trace (w : World) (c v : Nat) :
    (setMinimumBid w c v).2 = [] := by
  simp only [setMinimumBid]
  split
  · rfl
  · rfl

theorem setAgent_trace (w : World) (c a : Nat) :
    (setAgent w c a).2 = [] := by
  simp only [setAgent]
  split
  · rfl
  · rfl

/-! ### Claim theorems -/

/-- Claim C2: in every state reachable from initialization by any sequence of
successful operations, `active_bid_count` equals the number of existing Bid
Records whose `active` field is true. -/
theorem activeBidCount_matches_active_records {w : World} (h : Reachable w) :
    w.auction.activeBidCount = activeCount w.bids :=
  (reachable_inv h).2.1

theorem activeBidCount_matches_active_records_witness :
    (initWorld 1 2 3 100 fun _ => 1000).auction.activeBidCount
      = activeCount (initWorld 1 2 3 100 fun _ => 1000).bids :=
  activeBidCount_matches_active_records
    (Reachable.init 1 2 3 100 fun _ => 1000)

/-- Claim C3: in every state reachable from initialization by any sequence of
successful operations, the escrow (pooled) balance equals the sum of `amount`
over all Bid Records with `active == true`. -/
theorem escrow_equals_active_amounts {w : World} (h : Reachable w) :
    w.escrowBal = activeSum w.bids :=
  (reachable_inv h).2.2

theorem escrow_equals_active_amounts_witness :
    (initWorld 1 2 3 100 fun _ => 1000).escrowBal
      = activeSum (initWorld 1 2 3 100 fun _ => 1000).bids :=
  escrow_equals_active_amounts (Reachable.init 1 2 3 100 fun _ => 1000)

/-- Claim C4: every operation that returns an error leaves the entire state
(auction state, bid records, balances) exactly as before the call, and every
precondition-check failure (authorization, lifecycle, value, accounting-floor
and account-resolution errors — as opposed to checked-arithmetic and ledger
failures) is raised before any fund movement is attempted. -/
theorem error_atomicity_and_check_order {w : World} {op : Op} {e : Err}
    (h : (runOp w op).1 = .error e) :
    commit w op = w ∧ (e.isPrecondCheck = true → (runOp w op).2 = []) := by
  refine ⟨by simp [commit, h], fun hp => ?_⟩
  cases op with
  | placeBid c a now =>
      simp only [runOp] at h ⊢
      rcases placeBid_trace w c a now with ht | ⟨w1, hok⟩ | he | he
      · exact ht
      · rw [hok] at h; exact Except.noConfusion h
      · rw [he] at h
        injection h with h2
        rw [← h2] at hp
        simp [Err.isPrecondCheck] at hp
      · rw [he] at h
        injection h with h2
        rw [← h2] at hp
        simp [Err.isPrecondCheck] at hp
  | updateBid c ch now =>
      simp only [runOp] at h ⊢
      rcases updateBid_trace w c ch now with ht | ⟨w1, hok⟩ | he | he
      · exact ht
      · rw [hok] at h; exact Except.noConfusion h
      · rw [he] at h
        injection h with h2
        rw [← h2] at hp
        simp [Err.isPrecondCheck] at hp
      · rw [he] at h
        injection h with h2
        rw [← h2] at hp
        simp [Err.isPrecondCheck] at hp
  | withdrawBid c =>
      simp only [runOp] at h ⊢
      rcases withdrawBid_trace w c with ht | ⟨w1, hok⟩ | he | he
      · exact ht
      · rw [hok] at h; exact Except.noConfusion h
      · rw [he] at h
        injection h with h2
        rw [← h2] at hp
        simp [Err.isPrecondCheck] at hp
      · rw [he] at h
        injection h with h2
        rw [← h2] at hp
        simp [Err.isPrecondCheck] at hp
  | settle c winner =>
      simp only [runOp] at h ⊢
      rcases settle_trace w c winner with ht | ⟨w1, hok⟩ | he
      · exact ht
      · rw [hok] at h; exact Except.noConfusion h
      · rw [he] at h
        injection h with h2
        rw [← h2] at hp
        simp [Err.isPrecondCheck] at hp
  | closeBid c =>
      simp only [runOp] at h ⊢
      exact closeBid_trace w c
  | setMinimumBid c v =>
      simp only [runOp] at h ⊢
      exact setMinimumBid_trace w c v
  | setAgent c a =>
      simp only [runOp] at h ⊢
      exact setAgent_trace w c a

def c4World : World :=
  { auction :=
      { agent := 1, usdcMint := 2, treasury := 3, minimumBid := 100,
        activeBidCount := 0 },
    bids := [],
    bidderBal := fun _ => 1000,
    escrowBal := 0,
    treasuryBal := 0 }

theorem error_atomicity_and_check_order_witness :
    (runOp c4World (.placeBid 7 50 0)).1 = .error (.auction .BidTooLow) ∧
      (commit c4World (.placeBid 7 50 0) = c4World ∧
        ((Err.auction .BidTooLow).isPrecondCheck = true →
          (runOp c4World (.placeBid 7 50 0)).2 = [])) :=
  ⟨rfl, error_atomicity_and_check_order rfl⟩

/-- Claim C9: set_minimum_bid, called by the recorded agent with any new
value, always succeeds, overwrites `minimum_bid` with that value, and changes
nothing else: no bid record and no other auction-state field is modified. -/
theorem setMinimumBid_frame (w : World) (caller v : Nat)
    (h : caller = w.auction.agent) :
    (setMinimumBid w caller v).1
      = .ok { w with auction := { w.auction with minimumBid := v } } := by
  simp [setMinimumBid, h]

def c9World : World :=
  { auction :=
      { agent := 1, usdcMint := 2, treasury := 3, minimumBid := 100,
        activeBidCount := 1 },
    bids := [{ bidder := 7, amount := 150, createdAt := 0, updatedAt := 0,
               active := true }],
    bidderBal := fun _ => 0,
    escrowBal := 150,
    treasuryBal := 0 }

theorem setMinimumBid_frame_witness :
    (1 : Nat) = c9World.auction.agent ∧
      (setMinimumBid c9World 1 200).1
        = .ok { c9World with
                  auction := { c9World.auction with minimumBid := 200 } } :=
  ⟨rfl, setMinimumBid_frame c9World 1 200 rfl⟩

/-- Claim C1 (amended): after a successful withdraw_bid by the owning bidder
on an active bid, the full `amount` moves from escrow back to the bidder and
`active_bid_count` is decremented with an underflow check, but the Bid Record
does not survive: the `close = bidder` constraint on `WithdrawBid` destroys
the record within withdraw_bid itself, so no record remains for a later
close_bid. -/
theorem withdrawBid_returns_funds_and_destroys_record
    {w : World} {c : Nat} {bid : Bid}
    (hfb : findBid w.bids c = some bid) (hact : bid.active = true)
    (hesc : bid.amount ≤ w.escrowBal) (hcnt : 1 ≤ w.auction.activeBidCount) :
    (withdrawBid w c).1
      = .ok { w with
                bidderBal := fun k =>
                  if k = c then w.bidderBal c + bid.amount else w.bidderBal k,
                escrowBal := w.escrowBal - bid.amount,
                auction := { w.auction with
                               activeBidCount := w.auction.activeBidCount - 1 },
                bids := removeBid w.bids c } ∧
      findBid (removeBid w.bids c) c = none := by
  have hbidder := findBid_bidder hfb
  refine ⟨?_, findBid_removeBid_self w.bids c⟩
  simp [withdrawBid, hfb, hbidder, hact, applyTransfer, hesc, checkedSubU64,
    hcnt]

def c1World : World :=
  { auction :=
      { agent := 1, usdcMint := 2, treasury := 3, minimumBid := 100,
        activeBidCount := 1 },
    bids := [{ bidder := 7, amount := 100, createdAt := 0, updatedAt := 0,
               active := true }],
    bidderBal := fun _ => 0,
    escrowBal := 100,
    treasuryBal := 0 }

theorem withdrawBid_returns_funds_and_destroys_record_witness :
    findBid c1World.bids 7
        = some { bidder := 7, amount := 100, createdAt := 0, updatedAt := 0,
                 active := true } ∧
      findBid (commit c1World (.withdrawBid 7)).bids 7 = none := by
  refine ⟨rfl, ?_⟩
  have h := @withdrawBid_returns_funds_and_destroys_record c1World 7
    { bidder := 7, amount := 100, createdAt := 0, updatedAt := 0,
      active := true } rfl rfl (by decide) (by decide)
  simpa [commit, runOp, h.1] using h.2

def c1CexWorld : World :=
  { auction :=
      { agent := 1, usdcMint := 2, treasury := 3, minimumBid := 100,
        activeBidCount := 1 },
    bids := [{ bidder := 7, amount := 100, createdAt := 0, updatedAt := 0,
               active := true }],
    bidderBal := fun _ => 0,
    escrowBal := 100,
    treasuryBal := 0 }

/-- Counterexample to claim C1 as stated: on a concrete state with a single
active bid of amount 100 owned by bidder 7, withdraw_bid succeeds, yet
afterwards no Bid Record for bidder 7 exists at all (so it is not the case
that the record survives with `active = false` awaiting close_bid). -/
theorem withdrawBid_record_destroyed_cex :
    (withdrawBid c1CexWorld 7).1 = .ok (commit c1CexWorld (.withdrawBid 7)) ∧
      findBid (commit c1CexWorld (.withdrawBid 7)).bids 7 = none := by
  constructor <;> rfl

/-- Claim C5: for an active bid owned by the caller with current amount `A`,
update_bid with negative `amount_change` of magnitude `D` fails with
`InsufficientEscrow` when `D > A`, fails with `AmountBelowMinimum` when
`A - D` is below the floor, and otherwise succeeds, moving `D` from escrow to
the bidder and setting the amount to `A - D`. -/
theorem updateBid_decrease_spec {w : World} {c : Nat} {bid : Bid} {d : Nat}
    {now : Int}
    (hfb : findBid w.bids c = some bid) (hact : bid.active = true)
    (hd : 0 < d) (hdmax : d < 2 ^ 63) :
    (bid.amount < d →
      (updateBid w c (-(d : Int)) now).1
        = .error (.auction .InsufficientEscrow)) ∧
    (d ≤ bid.amount → bid.amount - d < w.auction.minimumBid →
      (updateBid w c (-(d : Int)) now).1
        = .error (.auction .AmountBelowMinimum)) ∧
    (d ≤ bid.amount → w.auction.minimumBid ≤ bid.amount - d →
      d ≤ w.escrowBal →
      (updateBid w c (-(d : Int)) now).1
        = .ok { w with
                  bidderBal := fun k =>
                    if k = c then w.bidderBal c + d else w.bidderBal k,
                  escrowBal := w.escrowBal - d,
                  bids := setBid w.bids c
                    { bid with amount := bid.amount - d, updatedAt := now } }) := by
  have hbidder := findBid_bidder hfb
  have hnotpos : ¬(0 < -(d : Int)) := by omega
  have hneg : -(d : Int) < 0 := by omega
  have habs : checkedAbsI64 (-(d : Int)) = some d := by
    unfold checkedAbsI64
    rw [if_neg (by omega)]
    simp
  refine ⟨fun hlt => ?_, fun hle hmin => ?_, fun hle hmin hesc => ?_⟩
  · have hnle : ¬ d ≤ bid.amount := by omega
    simp [updateBid, hfb, hbidder, hact, hnotpos, hneg, habs, checkedSubU64,
      hnle]
  · simp [updateBid, hfb, hbidder, hact, hnotpos, hneg, habs, checkedSubU64,
      hle, hmin]
  · have hnlt : ¬(bid.amount - d < w.auction.minimumBid) := by omega
    simp [updateBid, hfb, hbidder, hact, hnotpos, hneg, habs, checkedSubU64,
      hle, hnlt, applyTransfer, hesc]

def c5World : World :=
  { auction :=
      { agent := 1, usdcMint := 2, treasury := 3, minimumBid := 100,
        activeBidCount := 1 },
    bids := [{ bidder := 7, amount := 200, createdAt := 0, updatedAt := 0,
               active := true }],
    bidderBal := fun _ => 0,
    escrowBal := 200,
    treasuryBal := 0 }

theorem updateBid_decrease_spec_witness :
    findBid c5World.bids 7
        = some { bidder := 7, amount := 200, createdAt := 0, updatedAt := 0,
                 active := true } ∧
      (updateBid c5World 7 (-(150 : Int)) 0).1
        = .error (.auction .AmountBelowMinimum) ∧
      (updateBid c5World 7 (-(100 : Int)) 0).1
        = .ok { c5World with
                  bidderBal := fun k =>
                    if k = 7 then c5World.bidderBal 7 + 100
                    else c5World.bidderBal k,
                  escrowBal := c5World.escrowBal - 100,
                  bids := setBid c5World.bids 7
                    { bidder := 7, amount := 100, createdAt := 0,
                      updatedAt := 0, active := true } } := by
  refine ⟨rfl, ?_, ?_⟩
  · exact (@updateBid_decrease_spec c5World 7
      { bidder := 7, amount := 200, createdAt := 0, updatedAt := 0,
        active := true } 150 0
      rfl rfl (by decide) (by decide)).2.1 (by decide) (by decide)
  · exact (@updateBid_decrease_spec c5World 7
      { bidder := 7, amount := 200, createdAt := 0, updatedAt := 0,
        active := true } 100 0
      rfl rfl (by decide) (by decide)).2.2 (by decide) (by decide) (by decide)

/-- Claim C6: place_bid with amount strictly below `minimum_bid` fails with
`BidTooLow` before any fund movement; with amount at least `minimum_bid` and
sufficient bidder funds (and no counter overflow) it succeeds, creating an
active Bid Record with `created_at = updated_at = now`, moving the amount
from the bidder into escrow and incrementing `active_bid_count`. -/
theorem placeBid_spec {w : World} {c a : Nat} {now : Int}
    (hfb : findBid w.bids c = none) :
    (a < w.auction.minimumBid →
      (placeBid w c a now).1 = .error (.auction .BidTooLow) ∧
        (placeBid w c a now).2 = []) ∧
    (w.auction.minimumBid ≤ a → a ≤ w.bidderBal c →
      w.auction.activeBidCount + 1 < U64_MOD →
      (placeBid w c a now).1
        = .ok { w with
                  bidderBal := fun k =>
                    if k = c then w.bidderBal c - a else w.bidderBal k,
                  escrowBal := w.escrowBal + a,
                  bids := ({ bidder := c, amount := a, createdAt := now,
                             updatedAt := now, active := true } : Bid) :: w.bids,
                  auction := { w.auction with
                                 activeBidCount :=
                                   w.auction.activeBidCount + 1 } }) := by
  refine ⟨fun hlow => ?_, fun hmin hbal hcnt => ?_⟩
  · constructor <;> simp [placeBid, hfb, hlow]
  · have hnlt : ¬ a < w.auction.minimumBid := by omega
    simp [placeBid, hfb, hnlt, applyTransfer, hbal, checkedAddU64, hcnt]

def c6World : World :=
  { auction :=
      { agent := 1, usdcMint := 2, treasury := 3, minimumBid := 100,
        activeBidCount := 0 },
    bids := [],
    bidderBal := fun _ => 1000,
    escrowBal := 0,
    treasuryBal := 0 }

theorem placeBid_spec_witness :
    findBid c6World.bids 7 = none ∧
      ((placeBid c6World 7 50 0).1 = .error (.auction .BidTooLow) ∧
        (placeBid c6World 7 50 0).2 = []) ∧
      (placeBid c6World 7 100 0).1
        = .ok { c6World with
                  bidderBal := fun k =>
                    if k = 7 then c6World.bidderBal 7 - 100
                    else c6World.bidderBal k,
                  escrowBal := c6World.escrowBal + 100,
                  bids := ({ bidder := 7, amount := 100, createdAt := 0,
                             updatedAt := 0, active := true } : Bid)
                    :: c6World.bids,
                  auction := { c6World.auction with
                                 activeBidCount :=
                                   c6World.auction.activeBidCount + 1 } } :=
  ⟨rfl, (@placeBid_spec c6World 7 50 0 rfl).1 (by decide),
    (@placeBid_spec c6World 7 100 0 rfl).2 (by decide) (by decide) (by decide)⟩

/-- Claim C7: settle, called by the recorded agent on an active Bid Record of
amount `A`, deactivates the record, decrements `active_bid_count` with an
underflow check, and moves `A` from escrow to the treasury, leaving the
record in existence; a second settle on the same record fails `BidNotActive`,
and a call by any non-agent fails `OnlyAgent`. -/
theorem settle_spec {w : World} {caller winner : Nat} {bid : Bid}
    (hfb : findBid w.bids winner = some bid) (hact : bid.active = true)
    (hcnt : 1 ≤ w.auction.activeBidCount) (hesc : bid.amount ≤ w.escrowBal) :
    (caller = w.auction.agent →
      ∃ w1, (settle w caller winner).1 = .ok w1 ∧
        findBid w1.bids winner = some { bid with active := false } ∧
        w1.auction.activeBidCount = w.auction.activeBidCount - 1 ∧
        w1.escrowBal = w.escrowBal - bid.amount ∧
        w1.treasuryBal = w.treasuryBal + bid.amount ∧
        (settle w1 caller winner).1 = .error (.auction .BidNotActive)) ∧
    (∀ o : Nat, o ≠ w.auction.agent →
      (settle w o winner).1 = .error (.auction .OnlyAgent)) := by
  have hbidder := findBid_bidder hfb
  refine ⟨fun hagent => ?_, fun o hne => by simp [settle, hne]⟩
  refine ⟨{ w with
             bids := setBid w.bids winner { bid with active := false },
             auction := { w.auction with
                            activeBidCount := w.auction.activeBidCount - 1 },
             escrowBal := w.escrowBal - bid.amount,
             treasuryBal := w.treasuryBal + bid.amount },
          ?_, ?_, rfl, rfl, rfl, ?_⟩
  · simp [settle, hagent, hfb, hact, checkedSubU64, hcnt, applyTransfer, hesc]
  · exact findBid_setBid_self hfb hbidder
  · simp only [settle]
    rw [if_neg (by simp [hagent])]
    rw [show findBid ({ w with
          bids := setBid w.bids winner { bid with active := false },
          auction := { w.auction with
                         activeBidCount := w.auction.activeBidCount - 1 },
          escrowBal := w.escrowBal - bid.amount,
          treasuryBal := w.treasuryBal + bid.amount } : World).bids winner
        = some { bid with active := false } from
      findBid_setBid_self hfb hbidder]
    dsimp only
    rw [if_pos rfl]

def c7World : World :=
  { auction :=
      { agent := 1, usdcMint := 2, treasury := 3, minimumBid := 100,
        activeBidCount := 1 },
    bids := [{ bidder := 7, amount := 500, createdAt := 0, updatedAt := 0,
               active := true }],
    bidderBal := fun _ => 0,
    escrowBal := 500,
    treasuryBal := 0 }

theorem settle_spec_witness :
    findBid c7World.bids 7
        = some { bidder := 7, amount := 500, createdAt := 0, updatedAt := 0,
                 active := true } ∧
      (∃ w1, (settle c7World 1 7).1 = .ok w1 ∧
        findBid w1.bids 7
          = some { bidder := 7, amount := 500, createdAt := 0, updatedAt := 0,
                   active := false } ∧
        w1.auction.activeBidCount = c7World.auction.activeBidCount - 1 ∧
        w1.escrowBal = c7World.escrowBal - 500 ∧
        w1.treasuryBal = c7World.treasuryBal + 500 ∧
        (settle w1 1 7).1 = .error (.auction .BidNotActive)) ∧
      (settle c7World 2 7).1 = .error (.auction .OnlyAgent) := by
  have h := @settle_spec c7World 1 7
    { bidder := 7, amount := 500, createdAt := 0, updatedAt := 0,
      active := true } rfl rfl (by decide) (by decide)
  exact ⟨rfl, h.1 rfl, h.2 2 (by decide)⟩

/-- Claim C8 (amended): update_bid on an active owned bid with
`amount_change = i64::MIN` (whose negation is unrepresentable) fails with
`InvalidAmountChange` (not `ArithmeticOverflow`), and update_bid on an
increase whose checked addition to the current amount overflows `u64` fails
with `ArithmeticOverflow`. -/
theorem updateBid_overflow_errors {w : World} {c : Nat} {bid : Bid}
    {now : Int}
    (hfb : findBid w.bids c = some bid) (hact : bid.active = true) :
    ((updateBid w c (-(2 ^ 63 : Int)) now).1
        = .error (.auction .InvalidAmountChange)) ∧
    (∀ ch : Int, 0 < ch → ch.toNat ≤ w.bidderBal c →
      U64_MOD ≤ bid.amount + ch.toNat →
      (updateBid w c ch now).1 = .error (.auction .ArithmeticOverflow)) := by
  have hbidder := findBid_bidder hfb
  constructor
  · have h1 : ¬(0 < -(2 ^ 63 : Int)) := by norm_num
    have h2 : -(2 ^ 63 : Int) < 0 := by norm_num
    simp only [updateBid, hfb]
    rw [if_neg (by simp [hbidder])]
    rw [if_neg (by simp [hact])]
    rw [if_neg h1, if_pos h2]
    rw [show checkedAbsI64 (-(2 ^ 63 : Int)) = none from by simp [checkedAbsI64]]
  · intro ch hpos hbal hov
    have hnadd : checkedAddU64 bid.amount ch.toNat = none := by
      unfold checkedAddU64
      rw [if_neg (by omega)]
    simp [updateBid, hfb, hbidder, hact, hpos, applyTransfer, hbal, hnadd]

def c8CexWorld : World :=
  { auction :=
      { agent := 1, usdcMint := 2, treasury := 3, minimumBid := 100,
        activeBidCount := 1 },
    bids := [{ bidder := 7, amount := 200, createdAt := 0, updatedAt := 0,
               active := true }],
    bidderBal := fun _ => 0,
    escrowBal := 200,
    treasuryBal := 0 }

/-- Counterexample to claim C8 as stated: on a concrete active owned bid,
update_bid with `amount_change = i64::MIN` fails with `InvalidAmountChange`,
which differs from the claimed `ArithmeticOverflow` (the source uses
`checked_abs().ok_or(AuctionError::InvalidAmountChange)`). -/
theorem updateBid_i64_min_error_code_cex :
    (updateBid c8CexWorld 7 (-(2 ^ 63 : Int)) 0).1
        = .error (.auction .InvalidAmountChange) ∧
      Err.auction .InvalidAmountChange ≠ Err.auction .ArithmeticOverflow := by
  exact ⟨rfl, by decide⟩

def c8World : World :=
  { auction :=
      { agent := 1, usdcMint := 2, treasury := 3, minimumBid := 100,
        activeBidCount := 1 },
    bids := [{ bidder := 7, amount := 2 ^ 63 + 1, createdAt := 0,
               updatedAt := 0, active := true }],
    bidderBal := fun _ => 2 ^ 63,
    escrowBal := 2 ^ 63 + 1,
    treasuryBal := 0 }

theorem updateBid_overflow_errors_witness :
    findBid c8World.bids 7
        = some { bidder := 7, amount := 2 ^ 63 + 1, createdAt := 0,
                 updatedAt := 0, active := true } ∧
      (updateBid c8World 7 (-(2 ^ 63 : Int)) 0).1
        = .error (.auction .InvalidAmountChange) ∧
      (updateBid c8World 7 (2 ^ 63 - 1 : Int) 0).1
        = .error (.auction .ArithmeticOverflow) := by
  have h := @updateBid_overflow_errors c8World 7
    { bidder := 7, amount := 2 ^ 63 + 1, createdAt := 0, updatedAt := 0,
      active := true } 0 rfl rfl
  exact ⟨rfl, h.1, h.2 (2 ^ 63 - 1 : Int) (by decide) (by decide) (by decide)⟩

/-- Claim C10: when `minimum_bid = 0`, place_bid with amount 0 succeeds,
creating an active Bid Record of amount 0, moving zero funds, and
incrementing `active_bid_count`: no operation requires a strictly positive
bid amount. -/
theorem placeBid_zero_amount {w : World} {c : Nat} {now : Int}
    (hmin : w.auction.minimumBid = 0) (hfb : findBid w.bids c = none)
    (hcnt : w.auction.activeBidCount + 1 < U64_MOD) :
    ∃ w1, (placeBid w c 0 now).1 = .ok w1 ∧
      findBid w1.bids c
        = some { bidder := c, amount := 0, createdAt := now,
                 updatedAt := now, active := true } ∧
      w1.escrowBal = w.escrowBal ∧
      w1.bidderBal c = w.bidderBal c ∧
      w1.treasuryBal = w.treasuryBal ∧
      w1.auction.activeBidCount = w.auction.activeBidCount + 1 := by
  refine ⟨{ w with
             bidderBal := fun k =>
               if k = c then w.bidderBal c - 0 else w.bidderBal k,
             escrowBal := w.escrowBal + 0,
             bids := ({ bidder := c, amount := 0, createdAt := now,
                        updatedAt := now, active := true } : Bid) :: w.bids,
             auction := { w.auction with
                            activeBidCount := w.auction.activeBidCount + 1 } },
         ?_, ?_, ?_, ?_, ?_, ?_⟩
  · simp [placeBid, hfb, hmin, applyTransfer, checkedAddU64, hcnt]
  · exact findBid_cons_self rfl
  · simp
  · simp
  · rfl
  · rfl

def c10World : World :=
  { auction :=
      { agent := 1, usdcMint := 2, treasury := 3, minimumBid := 0,
        activeBidCount := 0 },
    bids := [],
    bidderBal := fun _ => 5,
    escrowBal := 0,
    treasuryBal := 0 }

theorem placeBid_zero_amount_witness :
    c10World.auction.minimumBid = 0 ∧
      findBid c10World.bids 7 = none ∧
      (∃ w1, (placeBid c10World 7 0 0).1 = .ok w1 ∧
        findBid w1.bids 7
          = some { bidder := 7, amount := 0, createdAt := 0, updatedAt := 0,
                   active := true } ∧
        w1.escrowBal = c10World.escrowBal ∧
        w1.bidderBal 7 = c10World.bidderBal 7 ∧
        w1.treasuryBal = c10World.treasuryBal ∧
        w1.auction.activeBidCount = c10World.auction.activeBidCount + 1) :=
  ⟨rfl, rfl, @placeBid_zero_amount c10World 7 0 rfl rfl (by decide)⟩

end CartoonistAuction
